import Mathlib

/-!
Shallow embedding of the valideero schema-validation engine
(`valideero/base.py`, `valideero/validators.py`, `valideero/compat.py`).

Values are modelled by the inductive `Value` (JSON-like Python values);
Python dicts are modelled as insertion-ordered association lists;
raising `ValidationError` is modelled by `Except VErr`.
-/

namespace Valideero

/-- JSON-like runtime values handled by the validators.  Python dicts are
modelled as insertion-ordered association lists with string keys (the Object
validator documents its properties as string keys). -/
inductive Value where
  | none
  | bool (b : Bool)
  | int (n : Int)
  | str (s : String)
  | list (elems : List Value)
  | map (kvs : List (String × Value))
deriving Repr

/-- `isinstance(x, string_types)` on a modelled value. -/
def isStringValue : Value → Bool
  | .str _ => true
  | _ => false

/-- `isinstance(x, numbers.Integral)`: in Python both `int` and `bool` are
integral numbers. -/
def isIntegral : Value → Bool
  | .int _ => true
  | .bool _ => true
  | _ => false

/-- `isinstance(x, bool)`. -/
def isBoolValue : Value → Bool
  | .bool _ => true
  | _ => false

/-- `ValidationError` (base.py): message, optionally attached offending value
(`UNDEFINED` is modelled by `Option.none`), and `error_path_items`, the list of
path segments appended innermost-first while the error unwinds. -/
structure VErr where
  msg : String
  value : Option Value
  path : List Value
deriving Repr

/-- `ValidationError.add_error_path_item` (base.py line 82): `list.append`. -/
def addPathItem (e : VErr) (item : Value) : VErr :=
  { e with path := e.path ++ [item] }

/-- A compiled validator's `validate` method: adapts the value or raises. -/
abbrev VFun := Value → Except VErr Value

/-! ### Association-list operations mirroring Python `dict` behaviour
(first occurrence wins on lookup; assignment replaces in place or appends;
`del` removes the key). -/

/-- `d[k]` / `k in d` combined: lookup of the first matching key. -/
def assocLookup {α β : Type} [DecidableEq α] : List (α × β) → α → Option β
  | [], _ => Option.none
  | (ka, v) :: rest, k => if ka = k then some v else assocLookup rest k

/-- `k in d`. -/
def assocContains {α β : Type} [DecidableEq α] (l : List (α × β)) (k : α) : Bool :=
  (assocLookup l k).isSome

/-- `d[k] = v`: replace in place when the key exists, append otherwise
(Python dicts keep the original insertion position on re-assignment). -/
def assocSet {α β : Type} [DecidableEq α] : List (α × β) → α → β → List (α × β)
  | [], k, v => [(k, v)]
  | (ka, va) :: rest, k, v =>
    if ka = k then (ka, v) :: rest else (ka, va) :: assocSet rest k v

/-- `del d[k]`: remove the first occurrence of the key. -/
def assocErase {α β : Type} [DecidableEq α] : List (α × β) → α → List (α × β)
  | [], _ => []
  | (ka, va) :: rest, k =>
    if ka = k then rest else (ka, va) :: assocErase rest k

/-! ### Error rendering: `ValidationError.to_text` (base.py lines 53-69)

`to_text` depends on the bound context's `repr` function and type-name
registry; both are passed explicitly (`reprF`, `typeNameF`). -/

/-- One loop iteration of `to_text`: `path_items[n] = "[{}]".format(repr(item))`. -/
def formatIndexItem (reprF : Value → String) (item : Value) : String :=
  "[" ++ reprF item ++ "]"

/-- The plain (non-indexed) rendering of the leading path item.  In `to_text`
the leading item is always a string by the time it is rendered (a non-string
head has had `"value"` inserted in front of it). -/
def plainHead : Value → String
  | .str s => s
  | _ => ""

/-- `ValidationError.to_text` (base.py lines 53-69). -/
def toText (reprF typeNameF : Value → String) (e : VErr) : String :=
  let message : String :=
    match e.value with
    | some v => "Invalid value " ++ reprF v ++ " (" ++ typeNameF v ++ "): " ++ e.msg
    | Option.none => e.msg
  if 0 < e.path.length then
    let items := e.path.reverse
    -- `if not isinstance(path_items[0], string_types): path_items.insert(0, "value")`
    let items :=
      if isStringValue (items.headD (.str "")) then items else Value.str "value" :: items
    -- positions 1.. are rewritten to `"[{}]".format(repr(item))`, then joined
    let rendered :=
      match items with
      | [] => ""
      | first :: rest => plainHead first ++ String.join (rest.map (formatIndexItem reprF))
    message ++ " (at " ++ rendered ++ ")"
  else
    message

/-- The base message of `to_text` as the specification words it: with a value
attached, `"Invalid value {repr} ({type name}): {message}"`; otherwise only the
message. -/
def specBaseMessage (reprF typeNameF : Value → String) (e : VErr) : String :=
  match e.value with
  | some v => "Invalid value " ++ reprF v ++ " (" ++ typeNameF v ++ "): " ++ e.msg
  | Option.none => e.msg

/-! ### Composite validators (validators.py) -/

/-- The loop of `AnyOf.validate` (validators.py lines 47-53) with the
accumulated `messages` list: try each child on `value`, return the first
success, append the failure message otherwise; when the children are exhausted
raise a single `ValidationError` joining the messages with `" or "`, with the
value attached and no path items. -/
def anyOfGo : List VFun → Value → List String → Except VErr Value
  | [], value, messages =>
    .error { msg := String.intercalate " or " messages, value := some value, path := [] }
  | validator :: rest, value, messages =>
    match validator value with
    | .ok r => .ok r
    | .error ex => anyOfGo rest value (messages ++ [ex.msg])

/-- `AnyOf.validate` (validators.py lines 46-53): the loop starts with an empty
`messages` list. -/
def anyOfValidate (validators : List VFun) (value : Value) : Except VErr Value :=
  anyOfGo validators value []

/-- The loop of `AllOf.validate` (validators.py lines 67-71): each child is
called on `value` (never on the running `result`), and the running `result` is
overwritten by each child's adaptation; the first failing child aborts. -/
def allOfGo : List VFun → Value → Value → Except VErr Value
  | [], _, result => .ok result
  | validator :: rest, value, _ =>
    match validator value with
    | .ok r => allOfGo rest value r
    | .error e => .error e

/-- `AllOf.validate` (validators.py lines 67-71): `result` starts as `value`,
so an empty `AllOf` returns the value unchanged and otherwise the last child's
adaptation is returned. -/
def allOfValidate (validators : List VFun) (value : Value) : Except VErr Value :=
  allOfGo validators value value

/-! ### Leaf validators -/

/-- `Type.validate` (validators.py lines 289-292): accept iff the value is an
instance of the accepted types and not of the rejected types; an accepted value
is returned unchanged.  The error is `Validator.error` (base.py lines 242-249):
`"must be {humanized_name}"` with the value attached. -/
def typeValidate (accept reject : Value → Bool) (humanizedName : String)
    (value : Value) : Except VErr Value :=
  if !(accept value) || reject value then
    .error { msg := "must be " ++ humanizedName, value := some value, path := [] }
  else
    .ok value

/-- The `Integer` validator (validators.py lines 312-320): accepts
`numbers.Integral` instances but rejects `bool`; `name = "integer"`. -/
def integerValidate (value : Value) : Except VErr Value :=
  typeValidate isIntegral isBoolValue "integer" value

/-! ### Validator binding: `Validator.set_validation_context` (base.py 213-217)

The bound context is stored only when none is bound yet (`self.val_context is
None`); any later call leaves the bound context unchanged. -/

/-- `Validator.set_validation_context`: returns the new `val_context` field
given the current one and the context being offered. -/
def setValidationContext {C : Type} (valContext : Option C) (context : C) : Option C :=
  match valContext with
  | Option.none => some context
  | some c => some c

/-! ### Schema resolution: `ValidationContext._get_validator` / `parse`
(base.py lines 111-197)

`named_validators` maps hashable schema keys to either a validator instance or
a validator class (registered classes are lazily instantiated and memoized back
into the registry); `validators_factories` is an ordered mapping of factory
name to factory callable, iterated with `iteritems` (compat.py line 47, i.e.
`iter(d.items())`: Python insertion order).  Looking up an unhashable schema
(e.g. a dict) raises `TypeError`, a missing key `KeyError`; the `hashable`
predicate models which schema objects can be used as dict keys. -/

/-- An entry of `named_validators`: a `Validator` instance, or a `Validator`
subclass (modelled by its zero-argument constructor). -/
inductive RegEntry (V : Type) where
  | inst (v : V)
  | cls (make : Unit → V)

/-- The factory loop of `_get_validator` (base.py lines 128-131): call each
factory on the raw schema in iteration order; the first non-`None` result is
returned; if every factory returns `None` (or there are none) the result is
`None`. -/
def factoryChain {S V : Type} : List (String × (S → Option V)) → S → Option V
  | [], _ => Option.none
  | (_, factory) :: rest, obj =>
    match factory obj with
    | some v => some v
    | Option.none => factoryChain rest obj

/-- `ValidationContext._get_validator` (base.py lines 123-135).  Returns the
resolved validator (or `none`) together with the possibly-updated
`named_validators` registry (a looked-up class is instantiated and the instance
memoized under the same key). -/
def getValidator {S V : Type} [DecidableEq S]
    (named : List (S × RegEntry V)) (factories : List (String × (S → Option V)))
    (hashable : S → Bool) (obj : S) : Option V × List (S × RegEntry V) :=
  if hashable obj then
    match assocLookup named obj with
    | some (.inst v) => (some v, named)
    | some (.cls make) =>
      let v := make ()
      (some v, assocSet named obj (.inst v))
    | Option.none => (factoryChain factories obj, named)
  else
    (factoryChain factories obj, named)

/-- The schema argument of `ValidationContext.parse` as the `isinstance` tests
of base.py lines 184-189 discriminate it: a `Validator` instance, a `Validator`
subclass, or any other object. -/
inductive SchemaObj (S V : Type) where
  | validatorInst (v : V)
  | validatorCls (make : Unit → V)
  | other (obj : S)

/-- `ValidationContext.parse` (base.py lines 184-197): instances are used
directly, classes instantiated, anything else resolved by `_get_validator`;
when no validator results, `SchemaError` is raised.  (The subsequent
`set_validation_context` and two-phase `parse()` calls return the same
validator and are modelled separately.) -/
def ctxParse {S V : Type} [DecidableEq S]
    (named : List (S × RegEntry V)) (factories : List (String × (S → Option V)))
    (hashable : S → Bool) :
    SchemaObj S V → Except String (V × List (S × RegEntry V))
  | .validatorInst v => .ok (v, named)
  | .validatorCls make => .ok (make (), named)
  | .other obj =>
    match getValidator named factories hashable obj with
    | (some v, named2) => .ok (v, named2)
    | (Option.none, _) => .error "cannot be parsed as a Validator"

/-! ### `Nullable.parse` (validators.py lines 128-137)

The second-phase `parse` of `Nullable` resolves its sub-schema and a
`NoneValue(default)` null-acceptor; when the resolved sub-validator is an
`AnyOf` the null-acceptor is appended to its `_validators` list, otherwise a
fresh two-child `AnyOf` is built.  The validator trees relevant here are
modelled structurally so that `humanized_name` can be computed. -/

/-- Structural model of a parsed validator tree, sufficient for
`humanized_name` (an `AnyOf` with its children, the `NoneValue` null-acceptor,
or any other validator abstracted by its humanized name). -/
inductive Vtree where
  | anyOf (children : List Vtree)
  | noneValue (default : Value)
  | leaf (name : String)

mutual

/-- `humanized_name`: for `AnyOf` the `" or "`-join of the children's names
(validators.py lines 55-57); for `NoneValue` the context's type name for
`NoneType` (validators.py lines 110-112), passed as `nullName`. -/
def humanizedName (nullName : String) : Vtree → String
  | .anyOf children => String.intercalate " or " (humanizedNames nullName children)
  | .noneValue _ => nullName
  | .leaf name => name

/-- The humanized names of a list of child validators. -/
def humanizedNames (nullName : String) : List Vtree → List String
  | [] => []
  | v :: rest => humanizedName nullName v :: humanizedNames nullName rest

end

/-- `Nullable.parse` (validators.py lines 128-137), given the already-resolved
sub-validator and the parsed `NoneValue` null-acceptor: an `AnyOf`
sub-validator has the null-acceptor appended to its child list; any other
sub-validator is wrapped in a fresh two-child `AnyOf`. -/
def nullableParse (validator noneValidator : Vtree) : Vtree :=
  match validator with
  | .anyOf children => .anyOf (children ++ [noneValidator])
  | v => .anyOf [v, noneValidator]

/-! ### The `Object` validator (validators.py lines 619-720) -/

/-- A key of the `properties` dict of `Object.__init__`: either a plain
(required) key or an `Optional(key, default)` marker (validators.py lines
603-613); `UNDEFINED` defaults are modelled by `Option.none`.  Defaults are
restricted to plain values (a zero-argument callable default evaluates to
`default()` at injection time, which a plain value models directly). -/
inductive PropKey where
  | required (key : String)
  | optional (key : String) (default : Option Value)

/-- The key of a property, `p.key` for `Optional` markers. -/
def propName : PropKey → String
  | .required k => k
  | .optional k _ => k

/-- The `additional` argument of `Object.__init__`: `True`, `False`, the
`REMOVE` sentinel, or any other value, which is parsed as a schema (modelled
here by the resolved validator's `validate` function). -/
inductive Additional where
  | allow
  | forbid
  | remove
  | schema (f : VFun)

/-- The parsed state of an `Object` validator: the fields built by
`Object.__init__` (lines 645-661) with every property schema resolved to its
validator by `Object.parse` (lines 664-672). -/
structure ObjectV where
  namedValidators : List (String × VFun)
  requiredKeys : List String
  optionalDefaults : List (String × Value)
  allKeys : List String
  additional : Additional
  ignoreOptionalErrors : Bool

/-- `self._all` after `Object.parse`: every `(key, schema)` pair in property
order with `Optional` markers unwrapped (lines 651-658, 668-671). -/
def objAll (properties : List (PropKey × VFun)) : List (String × VFun) :=
  properties.map (fun pf => (propName pf.1, pf.2))

/-- `self._required_keys` (line 657): the plain (non-`Optional`) keys. -/
def objRequiredKeys (properties : List (PropKey × VFun)) : List String :=
  (properties.filter (fun pf => match pf.1 with
    | .required _ => true
    | .optional _ _ => false)).map (fun pf => propName pf.1)

/-- `self._optional_defaults` (lines 653-654): the `Optional` keys carrying a
default. -/
def objOptionalDefaults (properties : List (PropKey × VFun)) : List (String × Value) :=
  properties.filterMap (fun pf => match pf.1 with
    | .optional k (some d) => some (k, d)
    | _ => Option.none)

/-- `self._all_keys` (line 659): the declared key list, `Optional` markers
already unwrapped. -/
def objAllKeys (properties : List (PropKey × VFun)) : List String :=
  (objAll properties).map Prod.fst

/-- `Object.__init__` + `Object.parse` over a property list. -/
def mkObject (properties : List (PropKey × VFun)) (additional : Additional)
    (ignoreOptionalErrors : Bool) : ObjectV :=
  { namedValidators := objAll properties
  , requiredKeys := objRequiredKeys properties
  , optionalDefaults := objOptionalDefaults properties
  , allKeys := objAllKeys properties
  , additional := additional
  , ignoreOptionalErrors := ignoreOptionalErrors }

/-- `"missing required properties: [{}]".format(", ".join(map(repr, missing)))`
(validators.py lines 678-681). -/
def formatMissing (reprF : Value → String) (missing : List String) : String :=
  "missing required properties: [" ++
    String.intercalate ", " (missing.map (fun k => reprF (.str k))) ++ "]"

/-- `"unexpected properties: {}".format(repr(additional_properties))`
(validators.py line 706): `repr` applied to the Python list of keys. -/
def formatUnexpected (reprF : Value → String) (extras : List String) : String :=
  "unexpected properties: " ++ reprF (.list (extras.map .str))

/-- The loop over `self._named_validators` (validators.py lines 684-697):
a declared property present in the input is validated and its adaptation
stored; on failure the error is re-raised with the property name attached as a
path item, unless `ignore_optional_errors` is set and the property is not
required, in which case the key is dropped from the result; a declared
property absent from the input gets its optional default injected, if any. -/
def validateProps (required : List String) (defaults : List (String × Value))
    (ignore : Bool) (value : List (String × Value)) :
    List (String × VFun) → List (String × Value) → Except VErr (List (String × Value))
  | [], result => .ok result
  | (name, f) :: rest, result =>
    match assocLookup value name with
    | some v =>
      match f v with
      | .ok adapted => validateProps required defaults ignore value rest (assocSet result name adapted)
      | .error ex =>
        if !ignore || required.contains name then
          .error (addPathItem ex (.str name))
        else
          validateProps required defaults ignore value rest (assocErase result name)
    | Option.none =>
      match assocLookup defaults name with
      | some d => validateProps required defaults ignore value rest (assocSet result name d)
      | Option.none => validateProps required defaults ignore value rest result

/-- `additional_properties = [k for k in value if k not in all_keys]`
(validators.py line 701). -/
def extraKeys (allKeys : List String) (kvs : List (String × Value)) : List String :=
  (kvs.map Prod.fst).filter (fun k => !(allKeys.contains k))

/-- The additional-schema loop (validators.py lines 712-718): each additional
property's value is validated against the additional schema, the adaptation
stored, and the key attached as a path item on failure.  The keys come from the
input, so `value[name]` is a total lookup (the `.getD` default is never hit). -/
def validateExtras (f : VFun) (value : List (String × Value)) :
    List String → List (String × Value) → Except VErr (List (String × Value))
  | [], result => .ok result
  | name :: rest, result =>
    match f ((assocLookup value name).getD .none) with
    | .ok adapted => validateExtras f value rest (assocSet result name adapted)
    | .error ex => .error (addPathItem ex (.str name))

/-- The `if self._additional is not True:` block (validators.py lines
699-718), given the result accumulated so far.  (A fold over an empty
`extras` list and an empty additional-schema loop both leave `result`
untouched, matching the `if additional_properties:` guard.) -/
def objAdditionalStep (o : ObjectV) (reprF : Value → String)
    (kvs result : List (String × Value)) : Except VErr (List (String × Value)) :=
  match o.additional with
  | .allow => .ok result
  | .forbid =>
    let extras := extraKeys o.allKeys kvs
    if extras.isEmpty then .ok result
    else .error { msg := formatUnexpected reprF extras, value := some (.map kvs), path := [] }
  | .remove => .ok ((extraKeys o.allKeys kvs).foldl assocErase result)
  | .schema f => validateExtras f kvs (extraKeys o.allKeys kvs) result

/-- `Object.validate` (validators.py lines 674-720) on a mapping input (the
inherited `Type.validate` mapping-instance check on line 675 precedes this and
has already accepted the value): (1) the missing required keys - the required
keys not present in the input - are an immediate aggregate error; (2) the
result starts as a copy of the input; (3) declared properties are validated;
(4) additional properties are handled per the `additional` mode. -/
def objectValidate (o : ObjectV) (reprF : Value → String)
    (kvs : List (String × Value)) : Except VErr (List (String × Value)) :=
  let missing := o.requiredKeys.filter (fun k => !(assocContains kvs k))
  if missing.isEmpty then
    match validateProps o.requiredKeys o.optionalDefaults o.ignoreOptionalErrors
        kvs o.namedValidators kvs with
    | .error e => .error e
    | .ok result => objAdditionalStep o reprF kvs result
  else
    .error { msg := formatMissing reprF missing, value := some (.map kvs), path := [] }

/-! ## Theorems -/

/-- C8: the bound validation context is set exactly once with first-wins
semantics: `set_validation_context` stores the given context only when no
context is bound yet, and every later call (any sequence of further contexts
offered, e.g. by a second Context's `parse`) leaves the originally bound
context unchanged. -/
theorem setValidationContext_first_wins (C : Type) (first : C) (later : List C) :
    setValidationContext Option.none first = some first ∧
    List.foldl setValidationContext (setValidationContext Option.none first) later = some first := by
  have haux : ∀ (l : List C) (c : C), List.foldl setValidationContext (some c) l = some c := by
    intro l
    induction l with
    | nil => intro c; rfl
    | cons x xs ih => intro c; simpa [setValidationContext] using ih c
  exact ⟨rfl, haux later first⟩

/-- C9: compiled validators are idempotent on fixed points: whenever
`Type.validate` accepts, it returns the value unchanged, so re-validating the
output yields the same result again; in particular the `Integer` validator
returns any accepted (non-bool integral) value unchanged and is a no-op on its
own output. -/
theorem typeValidate_idempotent_on_fixed_points :
    (∀ (accept reject : Value → Bool) (name : String) (value result : Value),
       typeValidate accept reject name value = .ok result →
       result = value ∧ typeValidate accept reject name result = .ok result) ∧
    (∀ (value result : Value),
       integerValidate value = .ok result →
       result = value ∧ integerValidate result = .ok result) := by
  have hmain : ∀ (accept reject : Value → Bool) (name : String) (value result : Value),
      typeValidate accept reject name value = .ok result →
      result = value ∧ typeValidate accept reject name result = .ok result := by
    intro accept reject name value result h
    unfold typeValidate at h
    split at h
    · exact absurd h (by simp)
    · rename_i hcond
      have hv : value = result := Except.ok.inj h
      subst hv
      exact ⟨rfl, by unfold typeValidate; simp [hcond]⟩
  exact ⟨hmain, fun value result h => hmain _ _ _ _ _ h⟩

/-- Witness for C9: validating the already-integer `12` against `Integer`
returns the same integer. -/
theorem typeValidate_idempotent_on_fixed_points_witness :
    integerValidate (Value.int 12) = .ok (Value.int 12) :=
  (typeValidate_idempotent_on_fixed_points.2 (Value.int 12) (Value.int 12) rfl).2

/-- C2: every `AllOf` child validates the *original* input value; if every
child accepts, the adaptation of the last child is returned (an empty `AllOf`
returns the input); the first failing child aborts with that child's error,
whatever children follow. -/
theorem allOfValidate_spec (value : Value) :
    (∀ (validators : List VFun) (results : List Value),
       List.Forall₂ (fun f r => f value = Except.ok r) validators results →
       allOfValidate validators value = .ok (results.getLastD value)) ∧
    (∀ (passed : List VFun) (failing : VFun) (rest : List VFun)
       (results : List Value) (e : VErr),
       List.Forall₂ (fun f r => f value = Except.ok r) passed results →
       failing value = .error e →
       allOfValidate (passed ++ failing :: rest) value = .error e) := by
  have hgo : ∀ (validators : List VFun) (results : List Value),
      List.Forall₂ (fun f r => f value = Except.ok r) validators results →
      ∀ (start : Value), allOfGo validators value start = .ok (results.getLastD start) := by
    intro validators results hall
    induction hall with
    | nil => intro start; rfl
    | cons hfr htail ih =>
      intro start
      rename_i f r fs rs
      simp only [allOfGo, hfr]
      rw [ih r, List.getLastD_cons]
  have habort : ∀ (passed : List VFun) (results : List Value),
      List.Forall₂ (fun f r => f value = Except.ok r) passed results →
      ∀ (failing : VFun) (rest : List VFun) (e : VErr), failing value = .error e →
      ∀ (start : Value), allOfGo (passed ++ failing :: rest) value start = .error e := by
    intro passed results hall
    induction hall with
    | nil =>
      intro failing rest e hfail start
      simp only [List.nil_append, allOfGo, hfail]
    | cons hfr htail ih =>
      intro failing rest e hfail start
      rename_i f r fs rs
      simp only [List.cons_append, allOfGo, hfr]
      exact ih failing rest e hfail r
  exact ⟨fun validators results hall => hgo validators results hall value,
         fun passed failing rest results e hall hfail =>
           habort passed results hall failing rest e hfail value⟩

/-- Witness for C2: both children accept, the second adapts to `2`, and
`AllOf` returns the last child's adaptation. -/
theorem allOfValidate_spec_witness :
    allOfValidate [fun _ => Except.ok (Value.int 1), fun _ => Except.ok (Value.int 2)]
      (Value.int 0) = .ok (Value.int 2) :=
  (allOfValidate_spec (Value.int 0)).1
    [fun _ => Except.ok (Value.int 1), fun _ => Except.ok (Value.int 2)]
    [Value.int 1, Value.int 2]
    (List.Forall₂.cons rfl (List.Forall₂.cons rfl List.Forall₂.nil))

/-- C3: `AnyOf` tries its children in declaration order and returns the first
accepting child's adaptation (whatever children follow); when every child
rejects, it raises one `ValidationError` whose message is the `" or "`-joined
concatenation of the children's failure messages, with the value attached and
no path segment at the `AnyOf` level. -/
theorem anyOfValidate_spec (value : Value) :
    (∀ (failed : List VFun) (errs : List VErr) (succeeding : VFun)
       (rest : List VFun) (r : Value),
       List.Forall₂ (fun f e => f value = Except.error e) failed errs →
       succeeding value = .ok r →
       anyOfValidate (failed ++ succeeding :: rest) value = .ok r) ∧
    (∀ (validators : List VFun) (errs : List VErr),
       List.Forall₂ (fun f e => f value = Except.error e) validators errs →
       anyOfValidate validators value =
         .error { msg := String.intercalate " or " (errs.map VErr.msg),
                  value := some value, path := [] }) := by
  have hgo : ∀ (failed : List VFun) (errs : List VErr),
      List.Forall₂ (fun f e => f value = Except.error e) failed errs →
      ∀ (tail : List VFun) (messages : List String),
        anyOfGo (failed ++ tail) value messages =
          anyOfGo tail value (messages ++ errs.map VErr.msg) := by
    intro failed errs hall
    induction hall with
    | nil => intro tail messages; simp
    | cons hfe htail ih =>
      intro tail messages
      rename_i f e fs es
      simp only [List.cons_append, anyOfGo, hfe, List.append_eq]
      rw [ih tail (messages ++ [e.msg])]
      simp
  constructor
  · intro failed errs succeeding rest r hall hsucc
    show anyOfGo (failed ++ succeeding :: rest) value [] = _
    rw [hgo failed errs hall (succeeding :: rest) []]
    simp only [anyOfGo, hsucc]
  · intro validators errs hall
    show anyOfGo validators value [] = _
    have h0 : validators = validators ++ [] := by simp
    rw [h0, hgo validators errs hall [] []]
    simp [anyOfGo]

/-- Witness for C3: both children reject, and the failure message is the
`" or "`-join of the children's messages with no path attached. -/
theorem anyOfValidate_spec_witness :
    anyOfValidate
      [fun v => Except.error { msg := "must be A", value := some v, path := [] },
       fun v => Except.error { msg := "must be B", value := some v, path := [] }]
      (Value.int 7) =
      .error { msg := String.intercalate " or " ["must be A", "must be B"],
               value := some (Value.int 7), path := [] } :=
  (anyOfValidate_spec (Value.int 7)).2
    [fun v => Except.error { msg := "must be A", value := some v, path := [] },
     fun v => Except.error { msg := "must be B", value := some v, path := [] }]
    [{ msg := "must be A", value := some (Value.int 7), path := [] },
     { msg := "must be B", value := some (Value.int 7), path := [] }]
    (List.Forall₂.cons rfl (List.Forall₂.cons rfl List.Forall₂.nil))

/-- C1, evaluated at the failing input: with two factories registered in the
order `first`, `second`, both matching the schema object, the factory chain of
`_get_validator` (reached because the object is not an instance, class or
registered name) returns the FIRST-registered factory's validator - the
factories are called in forward registration order, not in the reverse order
stated by the specification and by `parse`'s own docstring. -/
theorem ctxParse_factory_chain_forward_order :
    ctxParse (S := Nat) (V := Nat) []
        [("first", fun _ => some 1), ("second", fun _ => some 2)]
        (fun _ => true) (.other 0) = .ok (1, []) ∧
      factoryChain (S := Nat) (V := Nat)
        [("first", fun _ => some 1), ("second", fun _ => some 2)] 0 = some 1 :=
  ⟨rfl, rfl⟩

/-- `humanizedNames` is the pointwise `humanizedName` of the children. -/
theorem humanizedNames_eq_map (nullName : String) (children : List Vtree) :
    humanizedNames nullName children = children.map (humanizedName nullName) := by
  induction children with
  | nil => rfl
  | cons v rest ih => simp [humanizedNames, ih]

/-- C6: when the resolved sub-schema of a `Nullable` is an `AnyOf`, its parse
step appends the `NoneValue` null-acceptor to that `AnyOf`'s existing child
list instead of wrapping it, so the humanized name is one flat `" or "`-joined
disjunction ending in the null type name; any other resolved sub-validator is
wrapped in a fresh two-child `AnyOf`. -/
theorem nullableParse_flattens (nullName : String) (dflt : Value) :
    (∀ (children : List Vtree),
       nullableParse (.anyOf children) (.noneValue dflt) =
         .anyOf (children ++ [.noneValue dflt]) ∧
       humanizedName nullName (nullableParse (.anyOf children) (.noneValue dflt)) =
         String.intercalate " or "
           (children.map (humanizedName nullName) ++ [nullName])) ∧
    (∀ (other : Vtree), (∀ children, other ≠ .anyOf children) →
       nullableParse other (.noneValue dflt) = .anyOf [other, .noneValue dflt]) := by
  constructor
  · intro children
    refine ⟨rfl, ?_⟩
    show String.intercalate " or "
        (humanizedNames nullName (children ++ [.noneValue dflt])) = _
    rw [humanizedNames_eq_map]
    simp [humanizedName]
  · intro other h
    cases other with
    | anyOf children => exact absurd rfl (h children)
    | noneValue d => rfl
    | leaf n => rfl

/-- Witness for C6: a non-`AnyOf` sub-validator gets wrapped in a fresh
two-child `AnyOf`. -/
theorem nullableParse_flattens_witness :
    nullableParse (.leaf "A") (.noneValue .none) =
      .anyOf [.leaf "A", .noneValue .none] :=
  (nullableParse_flattens "null" Value.none).2 (.leaf "A") (fun _ h => Vtree.noConfusion h)

/-- C5: `to_text` renders `"Invalid value {repr} ({type name}): {message}"`
when a value is attached and only the message otherwise; with no path segments
the `" (at ...)"` suffix is omitted; with path segments the accumulated
segments are rendered in reverse (outermost-first) order, the first segment
(here a string, i.e. a property name) as a plain name and every subsequent
segment as an indexer `"[{repr(segment)}]"`. -/
theorem toText_rendering (reprF typeNameF : Value → String) (e : VErr) :
    (∀ v, e.value = some v → e.path = [] →
       toText reprF typeNameF e =
         "Invalid value " ++ reprF v ++ " (" ++ typeNameF v ++ "): " ++ e.msg) ∧
    (e.value = Option.none → e.path = [] → toText reprF typeNameF e = e.msg) ∧
    (∀ (s : String) (rest : List Value),
       e.path.reverse = Value.str s :: rest →
       toText reprF typeNameF e =
         specBaseMessage reprF typeNameF e ++ " (at " ++ s ++
           String.join (rest.map (formatIndexItem reprF)) ++ ")") := by
  refine ⟨?_, ?_, ?_⟩
  · intro v hv hpath
    simp [toText, hv, hpath]
  · intro hv hpath
    simp [toText, hv, hpath]
  · intro s rest hrev
    have hlen : 0 < e.path.length := by
      by_contra h
      have : e.path = [] := List.eq_nil_of_length_eq_zero (by omega)
      rw [this] at hrev
      exact List.noConfusion hrev
    unfold toText
    rw [if_pos hlen, hrev]
    simp only [List.headD_cons, isStringValue, if_pos]
    show specBaseMessage reprF typeNameF e ++ " (at " ++
        (plainHead (Value.str s) ++ String.join (rest.map (formatIndexItem reprF))) ++ ")" = _
    simp [plainHead, String.append_assoc]

/-- Witness for C5: the spec's path-accumulation example - innermost index `1`
then container key `"bar"` - renders as `bar[1]`. -/
theorem toText_rendering_witness :
    toText (fun v => match v with | .int n => toString n | _ => "?") (fun _ => "T")
        { msg := "must be integer", value := Option.none,
          path := [Value.int 1, Value.str "bar"] } =
      "must be integer" ++ " (at " ++ "bar" ++
        String.join ([Value.int 1].map
          (formatIndexItem (fun v => match v with | .int n => toString n | _ => "?"))) ++ ")" :=
  (toText_rendering (fun v => match v with | .int n => toString n | _ => "?") (fun _ => "T")
      { msg := "must be integer", value := Option.none,
        path := [Value.int 1, Value.str "bar"] }).2.2 "bar" [Value.int 1] rfl

/-- C10: when the outermost (last-appended) path segment is not a string -
e.g. an error at an index of a top-level sequence - `to_text` prepends the
literal name `"value"` as the leading path name and renders the non-string
segment (and all following segments) as indexers, giving paths like
`value[1]`. -/
theorem toText_nonstring_head (reprF typeNameF : Value → String) (e : VErr) :
    ∀ (v : Value) (rest : List Value),
      e.path.reverse = v :: rest → isStringValue v = false →
      toText reprF typeNameF e =
        specBaseMessage reprF typeNameF e ++ " (at " ++ "value" ++
          String.join ((v :: rest).map (formatIndexItem reprF)) ++ ")" := by
  intro v rest hrev hstr
  have hlen : 0 < e.path.length := by
    by_contra h
    have : e.path = [] := List.eq_nil_of_length_eq_zero (by omega)
    rw [this] at hrev
    exact List.noConfusion hrev
  unfold toText
  rw [if_pos hlen, hrev]
  simp only [List.headD_cons, hstr, Bool.false_eq_true, if_false]
  show specBaseMessage reprF typeNameF e ++ " (at " ++
      (plainHead (Value.str "value") ++
        String.join ((v :: rest).map (formatIndexItem reprF))) ++ ")" = _
  simp only [plainHead, String.append_assoc]

/-! ### Association-list lemmas -/

section AssocLemmas

variable {α β : Type} [DecidableEq α]

theorem assocLookup_set_self (l : List (α × β)) (k : α) (v : β) :
    assocLookup (assocSet l k v) k = some v := by
  induction l with
  | nil => simp [assocSet, assocLookup]
  | cons kv rest ih =>
    obtain ⟨ka, va⟩ := kv
    by_cases h : ka = k
    · subst h
      simp [assocSet, assocLookup]
    · simp [assocSet, assocLookup, h, ih]

theorem assocLookup_set_ne (l : List (α × β)) (k k2 : α) (v : β) (h : k2 ≠ k) :
    assocLookup (assocSet l k v) k2 = assocLookup l k2 := by
  induction l with
  | nil => simp [assocSet, assocLookup, Ne.symm h]
  | cons kv rest ih =>
    obtain ⟨ka, va⟩ := kv
    by_cases hk : ka = k
    · subst hk
      simp [assocSet, assocLookup, Ne.symm h]
    · by_cases hk2 : ka = k2
      · subst hk2
        simp [assocSet, assocLookup, h, hk]
      · simp [assocSet, assocLookup, hk, hk2, ih]

theorem assocLookup_erase_ne (l : List (α × β)) (k k2 : α) (h : k2 ≠ k) :
    assocLookup (assocErase l k) k2 = assocLookup l k2 := by
  induction l with
  | nil => simp [assocErase]
  | cons kv rest ih =>
    obtain ⟨ka, va⟩ := kv
    by_cases hk : ka = k
    · subst hk
      simp [assocErase, assocLookup, Ne.symm h]
    · by_cases hk2 : ka = k2
      · subst hk2
        simp [assocErase, assocLookup, h, hk]
      · simp [assocErase, assocLookup, hk, hk2, ih]

theorem keys_erase_sublist (l : List (α × β)) (k : α) :
    ((assocErase l k).map Prod.fst).Sublist (l.map Prod.fst) := by
  induction l with
  | nil => simp [assocErase]
  | cons kv rest ih =>
    obtain ⟨ka, va⟩ := kv
    by_cases hk : ka = k
    · subst hk
      simp only [assocErase, if_pos rfl, List.map_cons]
      exact List.sublist_cons_self ka (rest.map Prod.fst)
    · simp only [assocErase, hk, if_false, List.map_cons]
      exact ih.cons₂ ka

theorem assocLookup_eq_none_iff (l : List (α × β)) (k : α) :
    assocLookup l k = Option.none ↔ k ∉ l.map Prod.fst := by
  induction l with
  | nil => simp [assocLookup]
  | cons kv rest ih =>
    obtain ⟨ka, va⟩ := kv
    by_cases hk : ka = k
    · subst hk
      simp [assocLookup]
    · simp only [assocLookup, hk, if_false, List.map_cons, List.mem_cons, not_or, ih]
      constructor
      · intro hn
        exact ⟨fun he => hk he.symm, hn⟩
      · intro hn
        exact hn.2

theorem assocContains_iff_mem (l : List (α × β)) (k : α) :
    assocContains l k = true ↔ k ∈ l.map Prod.fst := by
  rw [assocContains, Option.isSome_iff_ne_none, ne_eq, assocLookup_eq_none_iff]
  simp

theorem assocLookup_erase_self (l : List (α × β)) (k : α)
    (h : (l.map Prod.fst).Nodup) :
    assocLookup (assocErase l k) k = Option.none := by
  induction l with
  | nil => simp [assocErase, assocLookup]
  | cons kv rest ih =>
    obtain ⟨ka, va⟩ := kv
    simp only [List.map_cons, List.nodup_cons] at h
    by_cases hk : ka = k
    · subst hk
      simp only [assocErase, if_pos rfl]
      rw [assocLookup_eq_none_iff]
      exact h.1
    · simp [assocErase, assocLookup, hk, ih h.2]

theorem mem_keys_set (l : List (α × β)) (k k2 : α) (v : β)
    (h : k2 ∈ (assocSet l k v).map Prod.fst) : k2 ∈ l.map Prod.fst ∨ k2 = k := by
  induction l with
  | nil =>
    simp only [assocSet, List.map_cons, List.map_nil, List.mem_singleton] at h
    exact Or.inr h
  | cons kv rest ih =>
    obtain ⟨ka, va⟩ := kv
    by_cases hk : ka = k
    · subst hk
      simp only [assocSet, if_pos rfl, List.map_cons] at h
      exact Or.inl h
    · simp only [assocSet, hk, if_false, List.map_cons, List.mem_cons] at h
      rcases h with h | h
      · exact Or.inl (List.mem_cons.mpr (Or.inl h))
      · rcases ih h with h2 | h2
        · exact Or.inl (List.mem_cons.mpr (Or.inr h2))
        · exact Or.inr h2

theorem nodup_keys_set (l : List (α × β)) (k : α) (v : β)
    (h : (l.map Prod.fst).Nodup) : ((assocSet l k v).map Prod.fst).Nodup := by
  induction l with
  | nil => simp [assocSet]
  | cons kv rest ih =>
    obtain ⟨ka, va⟩ := kv
    simp only [List.map_cons, List.nodup_cons] at h
    by_cases hk : ka = k
    · subst hk
      rw [show assocSet ((ka, va) :: rest) ka v = (ka, v) :: rest from by simp [assocSet]]
      simp only [List.map_cons, List.nodup_cons]
      exact h
    · simp only [assocSet, hk, if_false, List.map_cons, List.nodup_cons]
      refine ⟨fun hmem => ?_, ih h.2⟩
      rcases mem_keys_set rest k ka v hmem with h2 | h2
      · exact h.1 h2
      · exact hk h2

theorem nodup_keys_erase (l : List (α × β)) (k : α)
    (h : (l.map Prod.fst).Nodup) : ((assocErase l k).map Prod.fst).Nodup :=
  h.sublist (keys_erase_sublist l k)

theorem assocLookup_foldl_erase_not_mem (ks : List α) (l : List (α × β)) (k : α)
    (h : k ∉ ks) :
    assocLookup (ks.foldl assocErase l) k = assocLookup l k := by
  induction ks generalizing l with
  | nil => rfl
  | cons x xs ih =>
    simp only [List.mem_cons, not_or] at h
    rw [List.foldl_cons, ih (assocErase l x) h.2, assocLookup_erase_ne l x k h.1]

theorem assocLookup_foldl_erase_none (ks : List α) (l : List (α × β)) (k : α)
    (h : assocLookup l k = Option.none) :
    assocLookup (ks.foldl assocErase l) k = Option.none := by
  induction ks generalizing l with
  | nil => exact h
  | cons x xs ih =>
    rw [List.foldl_cons]
    refine ih (assocErase l x) ?_
    rw [assocLookup_eq_none_iff] at h ⊢
    exact fun hmem => h ((keys_erase_sublist l x).subset hmem)

theorem nodup_keys_foldl_erase (ks : List α) (l : List (α × β))
    (h : (l.map Prod.fst).Nodup) : ((ks.foldl assocErase l).map Prod.fst).Nodup := by
  induction ks generalizing l with
  | nil => exact h
  | cons x xs ih => exact ih (assocErase l x) (nodup_keys_erase l x h)

theorem assocLookup_foldl_erase_mem (ks : List α) (l : List (α × β)) (k : α)
    (hnd : (l.map Prod.fst).Nodup) (h : k ∈ ks) :
    assocLookup (ks.foldl assocErase l) k = Option.none := by
  induction ks generalizing l with
  | nil => cases h
  | cons x xs ih =>
    rw [List.foldl_cons]
    by_cases hx : k = x
    · subst hx
      exact assocLookup_foldl_erase_none xs (assocErase l k) k
        (assocLookup_erase_self l k hnd)
    · rcases List.mem_cons.mp h with h2 | h2
      · exact absurd h2 hx
      · exact ih (assocErase l x) (nodup_keys_erase l x hnd) h2

end AssocLemmas

/-- Witness for C10: an error at index `1` of a top-level sequence renders the
path as `value[1]`. -/
theorem toText_nonstring_head_witness :
    toText (fun v => match v with | .int n => toString n | _ => "?") (fun _ => "T")
        { msg := "must be integer", value := Option.none, path := [Value.int 1] } =
      "must be integer" ++ " (at " ++ "value" ++
        String.join ([Value.int 1].map
          (formatIndexItem (fun v => match v with | .int n => toString n | _ => "?"))) ++ ")" :=
  toText_nonstring_head (fun v => match v with | .int n => toString n | _ => "?") (fun _ => "T")
    { msg := "must be integer", value := Option.none, path := [Value.int 1] }
    (Value.int 1) [] rfl rfl

/-! ### Object-validator lemmas -/

theorem contains_eq_true_iff_mem (l : List String) (k : String) :
    l.contains k = true ↔ k ∈ l := by
  simp

theorem assocContains_set_self {α β : Type} [DecidableEq α]
    (l : List (α × β)) (k : α) (v : β) : assocContains (assocSet l k v) k = true := by
  rw [assocContains, assocLookup_set_self]
  rfl

theorem assocContains_set {α β : Type} [DecidableEq α]
    (l : List (α × β)) (k k2 : α) (v : β) (h : assocContains l k2 = true) :
    assocContains (assocSet l k v) k2 = true := by
  by_cases hk : k2 = k
  · subst hk
    exact assocContains_set_self l k2 v
  · rw [assocContains, assocLookup_set_ne l k k2 v hk]
    exact h

/-- When every declared property present in the input is accepted by its
validator, the property loop succeeds and: keys not among the declared names
keep their lookup; presence of a key in the running result is preserved;
declared properties present in the input are present in the final result; and
key-nodup is preserved. -/
theorem validateProps_ok (required : List String) (defaults : List (String × Value))
    (ign : Bool) (value : List (String × Value)) :
    ∀ (nvs : List (String × VFun)) (result : List (String × Value)),
      (∀ nf ∈ nvs, ∀ v, assocLookup value nf.1 = some v → ∃ r, nf.2 v = Except.ok r) →
      ∃ res, validateProps required defaults ign value nvs result = .ok res ∧
        (∀ k, k ∉ nvs.map Prod.fst → assocLookup res k = assocLookup result k) ∧
        (∀ k, assocContains result k = true → assocContains res k = true) ∧
        (∀ nf ∈ nvs, assocContains value nf.1 = true → assocContains res nf.1 = true) ∧
        ((result.map Prod.fst).Nodup → (res.map Prod.fst).Nodup) := by
  intro nvs
  induction nvs with
  | nil =>
    intro result hok
    exact ⟨result, rfl, fun k hk => rfl, fun k hk => hk,
      fun nf hnf => absurd hnf (List.not_mem_nil nf), fun h => h⟩
  | cons nf0 rest ih =>
    intro result hok
    obtain ⟨name, f⟩ := nf0
    have hokrest : ∀ nf ∈ rest, ∀ v, assocLookup value nf.1 = some v →
        ∃ r, nf.2 v = Except.ok r :=
      fun nf hnf => hok nf (List.mem_cons_of_mem _ hnf)
    cases hlook : assocLookup value name with
    | some v =>
      obtain ⟨r, hr⟩ := hok (name, f) (List.mem_cons_self _ _) v hlook
      have hr2 : f v = Except.ok r := hr
      obtain ⟨res, hres, huntouched, hmono, hdecl, hnodup⟩ :=
        ih (assocSet result name r) hokrest
      refine ⟨res, ?_, ?_, ?_, ?_, ?_⟩
      · simp only [validateProps, hlook]
        rw [hr2]
        exact hres
      · intro k hk
        simp only [List.map_cons, List.mem_cons, not_or] at hk
        rw [huntouched k hk.2, assocLookup_set_ne result name k r hk.1]
      · intro k hk
        exact hmono k (assocContains_set result name k r hk)
      · intro nf hnf hcont
        rcases List.mem_cons.mp hnf with h2 | h2
        · subst h2
          exact hmono name (assocContains_set_self result name r)
        · exact hdecl nf h2 hcont
      · intro hnd
        exact hnodup (nodup_keys_set result name r hnd)
    | none =>
      cases hdef : assocLookup defaults name with
      | some d =>
        obtain ⟨res, hres, huntouched, hmono, hdecl, hnodup⟩ :=
          ih (assocSet result name d) hokrest
        refine ⟨res, ?_, ?_, ?_, ?_, ?_⟩
        · simp only [validateProps, hlook, hdef]
          exact hres
        · intro k hk
          simp only [List.map_cons, List.mem_cons, not_or] at hk
          rw [huntouched k hk.2, assocLookup_set_ne result name k d hk.1]
        · intro k hk
          exact hmono k (assocContains_set result name k d hk)
        · intro nf hnf hcont
          rcases List.mem_cons.mp hnf with h2 | h2
          · subst h2
            rw [assocContains, hlook] at hcont
            exact absurd hcont (by simp)
          · exact hdecl nf h2 hcont
        · intro hnd
          exact hnodup (nodup_keys_set result name d hnd)
      | none =>
        obtain ⟨res, hres, huntouched, hmono, hdecl, hnodup⟩ := ih result hokrest
        refine ⟨res, ?_, ?_, ?_, ?_, ?_⟩
        · simp only [validateProps, hlook, hdef]
          exact hres
        · intro k hk
          simp only [List.map_cons, List.mem_cons, not_or] at hk
          exact huntouched k hk.2
        · exact hmono
        · intro nf hnf hcont
          rcases List.mem_cons.mp hnf with h2 | h2
          · subst h2
            rw [assocContains, hlook] at hcont
            exact absurd hcont (by simp)
          · exact hdecl nf h2 hcont
        · exact hnodup

/-- The additional-schema loop aborts with the failing key attached as a path
item: the keys before the failing one all validate, the failing key's error is
re-raised with the key appended. -/
theorem validateExtras_fail (f : VFun) (value : List (String × Value)) :
    ∀ (xs : List String) (k : String) (ys : List String) (e : VErr)
      (result : List (String × Value)),
      (∀ x ∈ xs, ∃ r, f ((assocLookup value x).getD .none) = Except.ok r) →
      f ((assocLookup value k).getD .none) = .error e →
      validateExtras f value (xs ++ k :: ys) result = .error (addPathItem e (.str k)) := by
  intro xs
  induction xs with
  | nil =>
    intro k ys e result hxs hk
    simp only [List.nil_append, validateExtras, hk]
  | cons x rest ih =>
    intro k ys e result hxs hk
    obtain ⟨r, hr⟩ := hxs x (List.mem_cons_self _ _)
    simp only [List.cons_append, validateExtras, hr]
    exact ih k ys e (assocSet result x r)
      (fun y hy => hxs y (List.mem_cons_of_mem _ hy)) hk

/-- When the additional schema accepts every additional value (adapting the
key `k`'s value to `g k`), the loop succeeds, stores each adaptation, and
leaves other keys' lookups unchanged. -/
theorem validateExtras_ok (f : VFun) (value : List (String × Value)) (g : String → Value) :
    ∀ (extras : List String) (result : List (String × Value)),
      (∀ k ∈ extras, f ((assocLookup value k).getD .none) = Except.ok (g k)) →
      extras.Nodup →
      ∃ res, validateExtras f value extras result = .ok res ∧
        (∀ k ∈ extras, assocLookup res k = some (g k)) ∧
        (∀ k, k ∉ extras → assocLookup res k = assocLookup result k) := by
  intro extras
  induction extras with
  | nil =>
    intro result hok hnd
    exact ⟨result, rfl, by simp, fun k hk => rfl⟩
  | cons x rest ih =>
    intro result hok hnd
    have hx := hok x (List.mem_cons_self _ _)
    obtain ⟨res, hres, hin, hout⟩ := ih (assocSet result x (g x))
      (fun k hk => hok k (List.mem_cons_of_mem _ hk)) (List.Nodup.of_cons hnd)
    have hxnotin : x ∉ rest := (List.nodup_cons.mp hnd).1
    refine ⟨res, ?_, ?_, ?_⟩
    · simp only [validateExtras, hx]
      exact hres
    · intro k hk
      rcases List.mem_cons.mp hk with h2 | h2
      · subst h2
        rw [hout k hxnotin, assocLookup_set_self]
      · exact hin k h2
    · intro k hk
      simp only [List.mem_cons, not_or] at hk
      rw [hout k hk.2, assocLookup_set_ne result x k (g x) hk.1]

/-- C4: for every `Object` validator (any properties, any `additional` mode)
and every input mapping missing at least one required key, `Object.validate`
raises exactly one `ValidationError` listing *all* the missing required keys -
whatever the per-property validators are, showing no property value is
validated first - and the missing list is exactly the required keys absent
from the input. -/
theorem objectValidate_missing_required (properties : List (PropKey × VFun))
    (add : Additional) (ign : Bool) (reprF : Value → String)
    (kvs : List (String × Value))
    (hmiss : (objRequiredKeys properties).filter (fun k => !(assocContains kvs k)) ≠ []) :
    objectValidate (mkObject properties add ign) reprF kvs =
      .error { msg := formatMissing reprF
                 ((objRequiredKeys properties).filter (fun k => !(assocContains kvs k))),
               value := some (.map kvs), path := [] } ∧
    ∀ k, k ∈ (objRequiredKeys properties).filter (fun k => !(assocContains kvs k)) ↔
         (k ∈ objRequiredKeys properties ∧ assocContains kvs k = false) := by
  constructor
  · have hempty :
        ((objRequiredKeys properties).filter (fun k => !(assocContains kvs k))).isEmpty
          = false := by
      cases hh : (objRequiredKeys properties).filter (fun k => !(assocContains kvs k)) with
      | nil => exact absurd hh hmiss
      | cons a l => rfl
    simp only [objectValidate, mkObject, hempty, Bool.false_eq_true, if_false]
  · intro k
    simp [List.mem_filter]

/-- Witness for C4: an `Object` with required keys `foo` and `baz` validating
the empty mapping raises the single aggregate error listing both keys. -/
theorem objectValidate_missing_required_witness :
    objectValidate
        (mkObject [(PropKey.required "foo", fun v => Except.ok v),
                   (PropKey.required "baz", fun v => Except.ok v)] .allow false)
        (fun _ => "r") [] =
      .error { msg := formatMissing (fun _ => "r") ["foo", "baz"],
               value := some (.map []), path := [] } :=
  (objectValidate_missing_required
    [(PropKey.required "foo", fun v => Except.ok v),
     (PropKey.required "baz", fun v => Except.ok v)]
    .allow false (fun _ => "r") [] (by decide)).1

/-- C7: for every `Object` validator whose required keys are all present and
whose declared-property validators accept (isolating the additional-property
step), and every input mapping with distinct keys: `additional=True` leaves
undeclared keys untouched; `additional=False` raises a `ValidationError`
listing the unexpected keys; `additional=REMOVE` drops the undeclared keys
from the result while keeping the declared input keys; any other `additional`
value acts as a schema - every additional value it accepts is adapted in the
result, and the first failing additional key aborts with that key attached as
a path segment. -/
theorem objectValidate_additional_modes
    (properties : List (PropKey × VFun)) (ign : Bool) (reprF : Value → String)
    (kvs : List (String × Value))
    (hnd : (kvs.map Prod.fst).Nodup)
    (hreq : ∀ k ∈ objRequiredKeys properties, assocContains kvs k = true)
    (hok : ∀ nf ∈ objAll properties, ∀ v, assocLookup kvs nf.1 = some v →
             ∃ r, nf.2 v = Except.ok r) :
    (∃ res, objectValidate (mkObject properties .allow ign) reprF kvs = .ok res ∧
       ∀ k ∈ extraKeys (objAllKeys properties) kvs,
         assocLookup res k = assocLookup kvs k) ∧
    (extraKeys (objAllKeys properties) kvs ≠ [] →
       objectValidate (mkObject properties .forbid ign) reprF kvs =
         .error { msg := formatUnexpected reprF (extraKeys (objAllKeys properties) kvs),
                  value := some (.map kvs), path := [] }) ∧
    (∃ res, objectValidate (mkObject properties .remove ign) reprF kvs = .ok res ∧
       (∀ k ∈ extraKeys (objAllKeys properties) kvs, assocContains res k = false) ∧
       (∀ k ∈ objAllKeys properties,
          assocContains kvs k = true → assocContains res k = true)) ∧
    (∀ (f : VFun) (g : String → Value),
       (∀ k ∈ extraKeys (objAllKeys properties) kvs,
          f ((assocLookup kvs k).getD .none) = Except.ok (g k)) →
       ∃ res, objectValidate (mkObject properties (.schema f) ign) reprF kvs = .ok res ∧
         ∀ k ∈ extraKeys (objAllKeys properties) kvs,
           assocLookup res k = some (g k)) ∧
    (∀ (f : VFun) (xs : List String) (k : String) (ys : List String) (e : VErr),
       extraKeys (objAllKeys properties) kvs = xs ++ k :: ys →
       (∀ x ∈ xs, ∃ r, f ((assocLookup kvs x).getD .none) = Except.ok r) →
       f ((assocLookup kvs k).getD .none) = .error e →
       objectValidate (mkObject properties (.schema f) ign) reprF kvs =
         .error (addPathItem e (.str k))) := by
  have hmiss : (objRequiredKeys properties).filter (fun k => !(assocContains kvs k)) = [] := by
    rw [List.filter_eq_nil_iff]
    intro a ha
    rw [hreq a ha]
    simp
  obtain ⟨res, hres, huntouched, hmono, hdecl, hnodup⟩ :=
    validateProps_ok (objRequiredKeys properties) (objOptionalDefaults properties) ign kvs
      (objAll properties) kvs hok
  have hunfold : ∀ add, objectValidate (mkObject properties add ign) reprF kvs =
      objAdditionalStep (mkObject properties add ign) reprF kvs res := by
    intro add
    simp only [objectValidate, mkObject, hmiss, List.isEmpty_nil, if_true]
    rw [hres]
  have hextramem : ∀ k, k ∈ extraKeys (objAllKeys properties) kvs →
      k ∉ (objAll properties).map Prod.fst := by
    intro k hk
    have h2 := (List.mem_filter.mp hk).2
    simp only [Bool.not_eq_true'] at h2
    intro hm
    have h3 : (objAllKeys properties).contains k = true :=
      (contains_eq_true_iff_mem (objAllKeys properties) k).mpr hm
    rw [h2] at h3
    exact Bool.false_ne_true h3
  have hndres : (res.map Prod.fst).Nodup := hnodup hnd
  refine ⟨?_, ?_, ?_, ?_, ?_⟩
  · -- additional = True
    refine ⟨res, ?_, ?_⟩
    · rw [hunfold .allow]
      rfl
    · intro k hk
      exact huntouched k (hextramem k hk)
  · -- additional = False
    intro hne
    rw [hunfold .forbid]
    have hempty : (extraKeys (objAllKeys properties) kvs).isEmpty = false := by
      cases hh : extraKeys (objAllKeys properties) kvs with
      | nil => exact absurd hh hne
      | cons a l => rfl
    simp only [objAdditionalStep, mkObject, hempty, Bool.false_eq_true, if_false]
  · -- additional = REMOVE
    refine ⟨(extraKeys (objAllKeys properties) kvs).foldl assocErase res, ?_, ?_, ?_⟩
    · rw [hunfold .remove]
      rfl
    · intro k hk
      rw [assocContains, assocLookup_foldl_erase_mem _ res k hndres hk]
      rfl
    · intro k hk hcont
      have hkne : k ∉ extraKeys (objAllKeys properties) kvs := by
        intro hmem
        have h2 := (List.mem_filter.mp hmem).2
        simp only [Bool.not_eq_true'] at h2
        have h3 : (objAllKeys properties).contains k = true :=
          (contains_eq_true_iff_mem (objAllKeys properties) k).mpr hk
        rw [h2] at h3
        exact Bool.false_ne_true h3
      rw [assocContains, assocLookup_foldl_erase_not_mem _ res k hkne]
      obtain ⟨nf, hnf, hfst⟩ := List.mem_map.mp hk
      have := hdecl nf hnf (by rw [hfst]; exact hcont)
      rw [hfst] at this
      rw [assocContains] at this
      exact this
  · -- additional is a schema, all additional values accepted
    intro f g hg
    have hndextras : (extraKeys (objAllKeys properties) kvs).Nodup :=
      List.Nodup.filter _ hnd
    obtain ⟨res2, hres2, hin, hout⟩ :=
      validateExtras_ok f kvs g (extraKeys (objAllKeys properties) kvs) res hg hndextras
    refine ⟨res2, ?_, hin⟩
    rw [hunfold (.schema f)]
    exact hres2
  · -- additional is a schema, some additional value rejected
    intro f xs k ys e hsplit hxs hk
    rw [hunfold (.schema f)]
    show validateExtras f kvs (extraKeys (objAllKeys properties) kvs) res = _
    rw [hsplit]
    exact validateExtras_fail f kvs xs k ys e res hxs hk

/-- Witness for C7: schema `{foo: <any>}` with `additional=False` validating
`{"foo": 1, "extra": true}` raises the unexpected-properties error naming
`extra`. -/
theorem objectValidate_additional_modes_witness :
    objectValidate
        (mkObject [(PropKey.required "foo", fun v => Except.ok v)] .forbid false)
        (fun _ => "r") [("foo", Value.int 1), ("extra", Value.bool true)] =
      .error { msg := formatUnexpected (fun _ => "r") ["extra"],
               value := some (.map [("foo", Value.int 1), ("extra", Value.bool true)]),
               path := [] } :=
  (objectValidate_additional_modes
      [(PropKey.required "foo", fun v => Except.ok v)] false (fun _ => "r")
      [("foo", Value.int 1), ("extra", Value.bool true)]
      (by decide) (by decide)
      (fun nf hnf v _hv => ⟨v, by
        have h2 : nf = ("foo", (fun v => Except.ok v : VFun)) := List.mem_singleton.mp hnf
        rw [h2]⟩)).2.1 (by decide)

end Valideero
